import Mathlib

/-
Verification of the stateful-transform scheduler and its token-level code
analysis (patsy/eval.py), against the natural-language specification.

The repository code under src/ (patsy/eval.py) is embedded faithfully:
`annotated_tokens`, `has_bare_variable_reference`, `replace_bare_funcalls`,
`_FuncallCapturer` / `capture_obj_method_calls`,
`EvalFactor.memorize_passes_needed` and the streaming protocol, and
`VarLookupDict`.

The helper module patsy/tokens.py (python_tokenize, pretty_untokenize,
normalize_token_spacing) and the Python expression evaluator are not part of
src/; they are modelled from the specification (sections 4.1 and 6), as
noted on each such definition.
-/

set_option maxRecDepth 100000

namespace Patsy

/-- Token types relevant to the expression language: identifiers, number
literals, and operator/punctuation tokens. -/
inductive TokType
  | NAME
  | NUMBER
  | OP
deriving Repr, DecidableEq, Inhabited

/-- A lexed token: its type and its text.  (Source origins carried by the
Python tokens are irrelevant to the verified properties and are omitted.) -/
structure Tok where
  typ : TokType
  text : String
deriving Repr, DecidableEq, Inhabited

/-- Modelled from the spec (section 4.1): characters that may start an
identifier. -/
def isIdentStart (c : Char) : Bool := c.isAlpha || c = '_'

/-- Modelled from the spec (section 4.1): characters that may continue an
identifier. -/
def isIdentChar (c : Char) : Bool := c.isAlphanum || c = '_'

/-- Single-character operator/punctuation tokens of the expression
language. -/
def singleOps : List Char :=
  ['+', '-', '*', '/', '(', ')', '[', ']', '\x7b', '\x7d', ',', '.', '<', '>', '=', '%']

/-- Modelled from the spec (section 4.1): the lexer core.  Consumes at least
one character per step; `fuel` bounds the recursion.  Returns `none` on a
character that is not part of the expression language (the Python tokenizer
raises there). -/
def tokenizeGo : Nat → List Char → Option (List Tok)
  | 0, _ => none
  | _, [] => some []
  | Nat.succ fuel, c :: cs =>
    if c = ' ' then tokenizeGo fuel cs
    else if isIdentStart c then
      match (c :: cs).span isIdentChar with
      | (xs, rest) =>
        match tokenizeGo fuel rest with
        | some ts => some (⟨TokType.NAME, String.mk xs⟩ :: ts)
        | none => none
    else if c.isDigit then
      match (c :: cs).span Char.isDigit with
      | (xs, rest) =>
        match tokenizeGo fuel rest with
        | some ts => some (⟨TokType.NUMBER, String.mk xs⟩ :: ts)
        | none => none
    else if c = '*' then
      match cs with
      | '*' :: rest =>
        match tokenizeGo fuel rest with
        | some ts => some (⟨TokType.OP, "**"⟩ :: ts)
        | none => none
      | rest =>
        match tokenizeGo fuel rest with
        | some ts => some (⟨TokType.OP, "*"⟩ :: ts)
        | none => none
    else if singleOps.contains c then
      match tokenizeGo fuel cs with
      | some ts => some (⟨TokType.OP, String.mk [c]⟩ :: ts)
      | none => none
    else none

/-- Modelled from the spec: `python_tokenize` of patsy/tokens.py (not under
src/) — lexes an expression string into a finite token sequence, failing on
malformed input. -/
def python_tokenize (code : String) : Option (List Tok) :=
  tokenizeGo (code.length + 1) code.data

/-- Opening bracket token texts. -/
def openBrackets : List String := ["(", "[", "\x7b"]

/-- Closing bracket token texts. -/
def closeBrackets : List String := [")", "]", "\x7d"]

/-- Binary-operator token texts that receive surrounding spaces in the
canonical spacing. -/
def spacedOps : List String := ["+", "-", "*", "/", "**", "%", "<", ">", "="]

/-- Modelled from the spec (sections 4.1, 6): whether the canonical
normalizer puts a space between two adjacent tokens ("deterministic minimal
spacing"). -/
def needSpace (t1 t2 : Tok) : Bool :=
  if spacedOps.contains t1.text || spacedOps.contains t2.text then true
  else if t1.text == "." || t2.text == "." then false
  else if t1.text == "," then true
  else if t2.text == "," then false
  else if openBrackets.contains t1.text then false
  else if closeBrackets.contains t2.text then false
  else if openBrackets.contains t2.text then false
  else true

/-- Modelled from the spec: `pretty_untokenize` of patsy/tokens.py (not
under src/) — reconstructs canonical source text from a token list with
deterministic minimal spacing. -/
def pretty_untokenize : List Tok → String
  | [] => ""
  | [t] => t.text
  | t1 :: t2 :: rest =>
    t1.text ++ (if needSpace t1 t2 then " " else "") ++ pretty_untokenize (t2 :: rest)

/-- Modelled from the spec: `normalize_token_spacing` of patsy/tokens.py
(not under src/) — tokenizes and reassembles with canonical spacing. -/
def normalize_token_spacing (code : String) : Option String :=
  (python_tokenize code).map pretty_untokenize

/-- An annotated token, as produced by `annotated_tokens` in patsy/eval.py:
the token plus its `bare_ref` / `bare_funcall` flags. -/
structure ATok where
  typ : TokType
  text : String
  bare_ref : Bool
  bare_funcall : Bool
deriving Repr, DecidableEq, Inhabited

/-- The underlying token of an annotated token. -/
def ATok.base (a : ATok) : Tok := ⟨a.typ, a.text⟩

/-- The annotator loop of `annotated_tokens` (patsy/eval.py, lines 546-555):
`prev` holds the Python local `prev_was_dot`; the one-token lookahead
`it.peek()[1] == "("` is the head of the remaining list. -/
def annotateFrom (prev : Bool) : List Tok → List ATok
  | [] => []
  | t :: rest =>
    let bref := !prev && t.typ == TokType.NAME
    let bfun := bref && (match rest with
      | [] => false
      | u :: _ => u.text == "(")
    ⟨t.typ, t.text, bref, bfun⟩ :: annotateFrom (t.text == ".") rest

/-- `annotated_tokens` of patsy/eval.py, on an already-lexed token list
(`prev_was_dot` starts false). -/
def annotated_tokens (ts : List Tok) : List ATok :=
  annotateFrom false ts

/-- `annotated_tokens` applied to a code string, as the Python function is. -/
def annotated_tokens_str (code : String) : Option (List ATok) :=
  (python_tokenize code).map annotated_tokens

/-- Token-level core of `has_bare_variable_reference` (patsy/eval.py, lines
576-580): some annotated token is a bare reference whose text is among
`names`. -/
def hbvrToks (names : List String) (ats : List ATok) : Bool :=
  ats.any (fun a => a.bare_ref && names.contains a.text)

/-- `has_bare_variable_reference(names, code)` of patsy/eval.py: tokenizes
`code` and scans the annotated tokens; `none` models a tokenization
failure. -/
def has_bare_variable_reference (names : List String) (code : String) : Option Bool :=
  (python_tokenize code).map (fun ts => hbvrToks names (annotated_tokens ts))

/-- `replace_bare_funcalls(code, replacer)` of patsy/eval.py (lines 582-588)
on a token list: every token that is both `bare_ref` and `bare_funcall` has
its text replaced by `replacer(text)`, all others pass through, and the
result is reassembled by the normalizer. -/
def replace_bare_funcalls (ts : List Tok) (replacer : String → String) : String :=
  pretty_untokenize ((annotated_tokens ts).map (fun a =>
    if a.bare_ref && a.bare_funcall then ⟨a.typ, replacer a.text⟩ else ⟨a.typ, a.text⟩))

/-- `replace_bare_funcalls` applied to a code string. -/
def replace_bare_funcalls_str (code : String) (replacer : String → String) : Option String :=
  (python_tokenize code).map (fun ts => replace_bare_funcalls ts replacer)

/-- `_FuncallCapturer` of patsy/eval.py (lines 606-631): the state of one
open capture. -/
structure FuncallCapturer where
  func : List String
  tokens : List Tok
  paren_depth : Int
  started : Bool
  done : Bool
deriving Repr, DecidableEq, Inhabited

/-- `_FuncallCapturer.__init__`: a capture opened at its start token. -/
def initCapturer (t : Tok) : FuncallCapturer :=
  ⟨[t.text], [t], 0, false, false⟩

/-- `_FuncallCapturer.add_token`.  `none` models one of the method's
assertion failures (`paren_depth >= 0`, or a pre-call token that is neither
a NAME nor a dot). -/
def addToken (c : FuncallCapturer) (t : Tok) : Option FuncallCapturer :=
  if c.done then some c
  else
    let toks := c.tokens ++ [t]
    let d0 := if openBrackets.contains t.text then c.paren_depth + 1 else c.paren_depth
    let d := if closeBrackets.contains t.text then d0 - 1 else d0
    if d < 0 then none
    else if !c.started then
      if t.text == "(" then
        some ⟨c.func, toks, d, true, d == 0⟩
      else if t.typ == TokType.NAME || t.text == "." then
        some ⟨c.func ++ [t.text], toks, d, false, false⟩
      else none
    else
      some ⟨c.func, toks, d, true, d == 0⟩

/-- The annotated-token walk of `capture_obj_method_calls` (patsy/eval.py,
lines 635-643): every open capturer consumes the current token, then a new
capturer is opened if the token is a bare reference equal to `name`. -/
def captureFold (name : String) (caps : List FuncallCapturer) : List ATok → Option (List FuncallCapturer)
  | [] => some caps
  | a :: rest =>
    match caps.mapM (fun c => addToken c ⟨a.typ, a.text⟩) with
    | none => none
    | some caps1 =>
      captureFold name
        (if a.bare_ref && a.text == name then caps1 ++ [initCapturer ⟨a.typ, a.text⟩] else caps1)
        rest

/-- Token-level `capture_obj_method_calls`: runs the walk and renders each
capturer as `("".join(func), pretty_untokenize(tokens))`. -/
def captureToks (name : String) (ts : List Tok) : Option (List (String × String)) :=
  match captureFold name [] (annotated_tokens ts) with
  | none => none
  | some caps => some (caps.map (fun c => (String.join c.func, pretty_untokenize c.tokens)))

/-- `capture_obj_method_calls(obj_name, code)` of patsy/eval.py, on a code
string. -/
def capture_obj_method_calls (name : String) (code : String) : Option (List (String × String)) :=
  (python_tokenize code).bind (captureToks name)

/-- The ways `EvalFactor.memorize_passes_needed` can fail instead of
returning.  `nameErrorUnboundToken` models the collision branch at
patsy/eval.py lines 363-365: the `raise PatsyError(... % (token,),
token.origin)` statement reads the name `token`, which is bound only inside
the nested `new_name_maker` function and not in the enclosing scope, so
Python raises `NameError` while building the exception's arguments; the
intended `PatsyError` is never constructed.  The `assert...` constructors
model the function's `assert` statements (Python `AssertionError`). -/
inductive SchedErr
  | tokenizeError
  | nameErrorUnboundToken
  | captureAssert
  | assertOneCall
  | assertCallName
  | assertStartsWith
  | missingCode
  | schedulingInvariant
  | fuelExhausted
deriving Repr, DecidableEq, Inhabited

/-- The parts of the Python `state` dict filled in by
`memorize_passes_needed`: `transforms` (generated instance name paired with
the factory token it came from, in allocation order), `eval_code`,
`memorize_code`, and `pass_bins`. -/
structure SchedState where
  transforms : List (String × String)
  eval_code : String
  memorize_code : List (String × String)
  pass_bins : List (List String)
deriving Repr, DecidableEq, Inhabited

/-- The stateful walk performed by `replace_bare_funcalls(self.code,
new_name_maker)` inside `memorize_passes_needed` (patsy/eval.py, lines
347-359): `new_name_maker`'s closure counter `i` and the accumulating
`state["transforms"]` dict are threaded explicitly.  For each token that is
both `bare_ref` and `bare_funcall` and whose text resolves in the namespace
to a stateful-transform factory (`env`), a fresh name
`_patsy_stobj<i>__<token>__` is allocated and the token is rewritten to
`<name>.transform`; all other tokens pass through. -/
def allocGo (env : String → Bool) (i : Nat) : List ATok → List (String × String) × List Tok
  | [] => ([], [])
  | a :: rest =>
    if a.bare_ref && a.bare_funcall && env a.text then
      let name := "_patsy_stobj" ++ toString i ++ "__" ++ a.text ++ "__"
      let (ts, toks) := allocGo env (i + 1) rest
      ((name, a.text) :: ts, ⟨a.typ, name ++ ".transform"⟩ :: toks)
    else
      let (ts, toks) := allocGo env i rest
      (ts, ⟨a.typ, a.text⟩ :: toks)

/-- Python's `str.startswith`, computed on the underlying character lists. -/
def strStartsWith (s pre : String) : Bool := List.isPrefixOf pre.data s.data

/-- The per-instance derivation of memorize code (patsy/eval.py, lines
369-379): capture the instance's `.transform(...)` occurrences in
`eval_code`, assert there is exactly one, assert its dotted name and its
text shape, and splice `.memorize_chunk` in place of `.transform`. -/
def deriveMemorize (eval_code : String) (obj : String) : Except SchedErr String :=
  match capture_obj_method_calls obj eval_code with
  | none => Except.error SchedErr.captureAssert
  | some [(cname, ccode)] =>
    if cname = obj ++ ".transform" then
      if strStartsWith ccode (cname ++ "(") then
        Except.ok (obj ++ ".memorize_chunk" ++ ccode.drop cname.length)
      else Except.error SchedErr.assertStartsWith
    else Except.error SchedErr.assertCallName
  | some _ => Except.error SchedErr.assertOneCall

/-- The `for obj_name in state["transforms"]` loop filling
`state["memorize_code"]` (patsy/eval.py, lines 368-379). -/
def deriveAll (eval_code : String) : List (String × String) → Except SchedErr (List (String × String))
  | [] => Except.ok []
  | (n, _) :: rest =>
    match deriveMemorize eval_code n with
    | Except.error e => Except.error e
    | Except.ok m =>
      match deriveAll eval_code rest with
      | Except.error e => Except.error e
      | Except.ok ms => Except.ok ((n, m) :: ms)

/-- One round of the fix-point body (patsy/eval.py, lines 399-404): of the
still-unassigned instances `l`, keep those whose memorize code has no bare
reference to any other still-unassigned instance (`all` is the full current
`unsorted` set). -/
def binFilter (mc : List (String × String)) (all : List String) : List String → Except SchedErr (List String)
  | [] => Except.ok []
  | n :: rest =>
    match mc.lookup n with
    | none => Except.error SchedErr.missingCode
    | some code =>
      match has_bare_variable_reference (List.erase all n) code with
      | none => Except.error SchedErr.tokenizeError
      | some b =>
        match binFilter mc all rest with
        | Except.error e => Except.error e
        | Except.ok tail => Except.ok (if b then tail else n :: tail)

/-- The `while unsorted:` fix-point loop of `memorize_passes_needed`
(patsy/eval.py, lines 396-407).  An empty bin while instances remain is the
`assert pass_bin` failure (`schedulingInvariant`); each round removes the
selected bin from `unsorted`.  `fuel` bounds the rounds (each successful
round strictly shrinks `unsorted`). -/
def binLoop (mc : List (String × String)) : Nat → List String → Except SchedErr (List (List String))
  | _, [] => Except.ok []
  | 0, _ :: _ => Except.error SchedErr.fuelExhausted
  | Nat.succ fuel, n :: rest =>
    match binFilter mc (n :: rest) (n :: rest) with
    | Except.error e => Except.error e
    | Except.ok bin =>
      if bin.isEmpty then Except.error SchedErr.schedulingInvariant
      else
        match binLoop mc fuel ((n :: rest).filter (fun x => !bin.contains x)) with
        | Except.error e => Except.error e
        | Except.ok bins => Except.ok (bin :: bins)

/-- `EvalFactor.memorize_passes_needed` (patsy/eval.py, lines 341-410) on
the factor's (already normalized) code and the namespace's
stateful-transform capability predicate `env`.  Returns the filled `state`
and the returned pass count, or the failure the Python run would raise. -/
def memorize_passes_needed (code : String) (env : String → Bool) : Except SchedErr (SchedState × Nat) :=
  match python_tokenize code with
  | none => Except.error SchedErr.tokenizeError
  | some toks =>
    let alloc := allocGo env 0 (annotated_tokens toks)
    let transforms := alloc.1
    let eval_code := pretty_untokenize alloc.2
    match has_bare_variable_reference (transforms.map Prod.fst) code with
    | none => Except.error SchedErr.tokenizeError
    | some true => Except.error SchedErr.nameErrorUnboundToken
    | some false =>
      match deriveAll eval_code transforms with
      | Except.error e => Except.error e
      | Except.ok mc =>
        match binLoop mc ((transforms.map Prod.fst).dedup.length + 1) (transforms.map Prod.fst).dedup with
        | Except.error e => Except.error e
        | Except.ok bins =>
          Except.ok (⟨transforms, eval_code, mc, bins⟩, bins.length)

/-- A lookup function layering an ordered list of mappings, first mapping
wins (spec section 6: "an ordered list of layered variable mappings
(innermost wins)"). -/
def layeredLookup {V : Type} (layers : List (String → Option V)) : String → Option V :=
  fun k => layers.foldr (fun l acc => (l k).orElse (fun _ => acc)) none

/-- `EvalFactor.eval` / `EvalFactor._eval` (patsy/eval.py, lines 412-431)
against an abstract expression evaluator `E` (the evaluator itself is an
external collaborator, spec section 6).  The inner namespace layers the data
chunk over the factor's transform-instance objects (`VarLookupDict([data,
memorize_state["transforms"]])`), then the captured environment `outer`. -/
def evalModel {V R : Type} (E : String → (String → Option V) → R)
    (st : SchedState) (objs : String → Option V)
    (data : String → Option V) (outer : String → Option V) : R :=
  E st.eval_code
    (layeredLookup [data,
      fun k => if (st.transforms.map Prod.fst).contains k then objs k else none,
      outer])

/-- `_MockTransform` of patsy/eval.py (lines 480-496): adds up all memorized
data, then subtracts that sum from each datum.  Data chunks are integer
vectors. -/
structure MockTransform where
  sum : Int
  chunkCalled : Nat
  finishCalled : Nat
deriving Repr, DecidableEq, Inhabited

/-- `_MockTransform.__init__`. -/
def MockTransform.init : MockTransform := ⟨0, 0, 0⟩

/-- `_MockTransform.memorize_chunk`: accumulate `np.sum(data)` and count the
call. -/
def MockTransform.memorize_chunk (t : MockTransform) (xs : List Int) : MockTransform :=
  { t with sum := t.sum + xs.foldl (· + ·) 0, chunkCalled := t.chunkCalled + 1 }

/-- `_MockTransform.memorize_finish`: count the call. -/
def MockTransform.memorize_finish (t : MockTransform) : MockTransform :=
  { t with finishCalled := t.finishCalled + 1 }

/-- `_MockTransform.transform`: `data - self._sum`, elementwise. -/
def MockTransform.transform (t : MockTransform) (xs : List Int) : List Int :=
  xs.map (fun x => x - t.sum)

/-- Values of the modelled expression evaluator: integer vectors (numpy
arrays in the tests) and Python's None (the result of a `memorize_chunk`
call). -/
inductive PyVal
  | vec (xs : List Int)
  | pynone
deriving Repr, DecidableEq, Inhabited

/-- The transform-instance namespace `state["transforms"]`, instantiated
with `_MockTransform` objects. -/
abbrev Trans := List (String × MockTransform)

/-- Replace the value stored under a key of an association list (Python dict
mutation). -/
def updateAssoc (k : String) (v : MockTransform) : Trans → Trans
  | [] => []
  | (k1, v1) :: rest => if k1 = k then (k1, v) :: rest else (k1, v1) :: updateAssoc k v rest

/-- Method dispatch on a transform instance: `<obj>.transform(arg)` reads
the instance, `<obj>.memorize_chunk(arg)` mutates it and returns None. -/
def callMethod (obj m : String) (arg : PyVal) (tr : Trans) : Option (PyVal × Trans) :=
  match tr.lookup obj, arg with
  | some t, PyVal.vec xs =>
    if m = "transform" then some (PyVal.vec (MockTransform.transform t xs), tr)
    else if m = "memorize_chunk" then
      some (PyVal.pynone, updateAssoc obj (MockTransform.memorize_chunk t xs) tr)
    else none
  | _, _ => none

/-- Modelled from the spec (section 6): the external expression evaluator,
for the fragment the scheduler generates — names, dotted single-argument
method calls on transform instances, and `+`.  Names resolve in the data
chunk; method calls resolve in and mutate the transform namespace.  Returns
the value, the updated transform namespace, and the unconsumed tokens. -/
def pyEval (data : List (String × List Int)) : Nat → Trans → List Tok → Option (PyVal × Trans × List Tok)
  | 0, _, _ => none
  | Nat.succ fuel, tr, toks =>
    let atomResult : Option (PyVal × Trans × List Tok) :=
      match toks with
      | ⟨TokType.NAME, n⟩ :: ⟨TokType.OP, "."⟩ :: ⟨TokType.NAME, m⟩ :: ⟨TokType.OP, "("⟩ :: rest =>
        match pyEval data fuel tr rest with
        | some (v, tr1, ⟨TokType.OP, ")"⟩ :: rest1) =>
          match callMethod n m v tr1 with
          | some (v1, tr2) => some (v1, tr2, rest1)
          | none => none
        | _ => none
      | ⟨TokType.NAME, n⟩ :: rest =>
        (data.lookup n).map (fun xs => (PyVal.vec xs, tr, rest))
      | _ => none
    match atomResult with
    | some (v, tr1, ⟨TokType.OP, "+"⟩ :: rest2) =>
      match pyEval data fuel tr1 rest2 with
      | some (v2, tr2, rest3) =>
        match v, v2 with
        | PyVal.vec xs, PyVal.vec ys =>
          if xs.length = ys.length then some (PyVal.vec (List.zipWith (· + ·) xs ys), tr2, rest3)
          else none
        | _, _ => none
      | none => none
    | other => other

/-- Evaluate a full generated code string: tokenize, evaluate, require all
tokens consumed. -/
def evalCodeString (data : List (String × List Int)) (tr : Trans) (code : String) : Option (PyVal × Trans) :=
  match python_tokenize code with
  | none => none
  | some ts =>
    match pyEval data (ts.length + 1) tr ts with
    | some (v, tr1, []) => some (v, tr1)
    | _ => none

/-- `EvalFactor.memorize_chunk(state, which_pass, data)` (patsy/eval.py,
lines 416-418): evaluate the memorize code of every instance in bin
`which_pass` against the data chunk, threading the mutated transform
namespace. -/
def factorMemorizeChunk (st : SchedState) (whichPass : Nat) (data : List (String × List Int)) (tr : Trans) : Option Trans :=
  match st.pass_bins.get? whichPass with
  | none => none
  | some bin =>
    bin.foldlM (fun tr1 n =>
      match st.memorize_code.lookup n with
      | none => none
      | some code => (evalCodeString data tr1 code).map Prod.snd) tr

/-- `EvalFactor.memorize_finish(state, which_pass)` (patsy/eval.py, lines
420-422): call `memorize_finish` on every instance in the bin. -/
def factorMemorizeFinish (st : SchedState) (whichPass : Nat) (tr : Trans) : Option Trans :=
  match st.pass_bins.get? whichPass with
  | none => none
  | some bin =>
    bin.foldlM (fun tr1 n =>
      (tr1.lookup n).map (fun t => updateAssoc n (MockTransform.memorize_finish t) tr1)) tr

/-- `EvalFactor.eval(memorize_state, data)` (patsy/eval.py, lines 430-431)
under the modelled evaluator: evaluate `eval_code`; the result must be a
vector. -/
def factorEval (st : SchedState) (data : List (String × List Int)) (tr : Trans) : Option (List Int) :=
  match evalCodeString data tr st.eval_code with
  | some (PyVal.vec xs, _) => some xs
  | _ => none

/-- `VarLookupDict` of patsy/eval.py (lines 33-63): a stack of mappings;
lookups check the internal zeroth mapping first, then the
constructor-supplied ones in order; assignments go into the zeroth
mapping. -/
structure VarLookupDict (V : Type) where
  zeroth : List (String × V)
  rest : List (List (String × V))
deriving Repr, DecidableEq

/-- `VarLookupDict.__init__(dicts)`: `self._dicts = [{}] + list(dicts)`. -/
def VarLookupDict.ofDicts {V : Type} (ds : List (List (String × V))) : VarLookupDict V :=
  ⟨[], ds⟩

/-- The lookup scan of `VarLookupDict.__getitem__`: first mapping containing
the key wins. -/
def lookupFirst {V : Type} (k : String) : List (List (String × V)) → Option V
  | [] => none
  | d :: ds =>
    match d.lookup k with
    | some v => some v
    | none => lookupFirst k ds

/-- `VarLookupDict.__getitem__`; `none` models the `KeyError`. -/
def VarLookupDict.getItem {V : Type} (dct : VarLookupDict V) (k : String) : Option V :=
  lookupFirst k (dct.zeroth :: dct.rest)

/-- `VarLookupDict.__setitem__`: store into the zeroth mapping.  (The Python
dict assignment overwrites in place; prepending gives the same
`__getitem__` behaviour since the scan stops at the first hit.) -/
def VarLookupDict.setItem {V : Type} (dct : VarLookupDict V) (k : String) (v : V) : VarLookupDict V :=
  ⟨(k, v) :: dct.zeroth, dct.rest⟩

/-- Whether the token at index `i` is a NAME token. -/
def isNameAt (ts : List Tok) (i : Nat) : Bool :=
  match ts.get? i with
  | some t => t.typ == TokType.NAME
  | none => false

/-- Whether the token immediately before index `i` is a `"."` token (false
at index 0). -/
def prevIsDot (ts : List Tok) (i : Nat) : Bool :=
  match i with
  | 0 => false
  | Nat.succ j =>
    match ts.get? j with
    | some p => p.text == "."
    | none => false

/-- The `prev_was_dot` value seen by the annotator at index `i`, when the
walk was entered with initial value `prev`. -/
def prevFlag (prev : Bool) (ts : List Tok) (i : Nat) : Bool :=
  match i with
  | 0 => prev
  | Nat.succ j =>
    match ts.get? j with
    | some p => p.text == "."
    | none => false

/-- Whether the exact next token after index `i` is an opening
parenthesis. -/
def nextIsLParen (ts : List Tok) (i : Nat) : Bool :=
  match ts.get? (i + 1) with
  | some t => t.text == "("
  | none => false

theorem annotateFrom_map_base : ∀ (prev : Bool) (ts : List Tok),
    (annotateFrom prev ts).map ATok.base = ts := by
  intro prev ts
  induction ts generalizing prev with
  | nil => rfl
  | cons t rest ih => simp [annotateFrom, ATok.base, ih]

theorem annotateFrom_length (prev : Bool) (ts : List Tok) :
    (annotateFrom prev ts).length = ts.length := by
  have h := congrArg List.length (annotateFrom_map_base prev ts)
  simpa using h

theorem annotateFrom_get? : ∀ (ts : List Tok) (prev : Bool) (i : Nat),
    (annotateFrom prev ts).get? i =
      (ts.get? i).map (fun t =>
        ⟨t.typ, t.text, !(prevFlag prev ts i) && (t.typ == TokType.NAME),
          (!(prevFlag prev ts i) && (t.typ == TokType.NAME)) && nextIsLParen ts i⟩) := by
  intro ts
  induction ts with
  | nil => intro prev i; simp [annotateFrom]
  | cons t rest ih =>
    intro prev i
    cases i with
    | zero =>
      cases rest with
      | nil => simp [annotateFrom, prevFlag, nextIsLParen]
      | cons u rest2 => simp [annotateFrom, prevFlag, nextIsLParen]
    | succ j =>
      have step : (annotateFrom prev (t :: rest)).get? (j + 1) =
          (annotateFrom (t.text == ".") rest).get? j := by
        simp [annotateFrom]
      rw [step, ih]
      have hprev : prevFlag (t.text == ".") rest j = prevFlag prev (t :: rest) (j + 1) := by
        cases j with
        | zero => simp [prevFlag]
        | succ k => simp [prevFlag]
      have hnext : nextIsLParen rest j = nextIsLParen (t :: rest) (j + 1) := by
        simp [nextIsLParen]
      rw [hprev, hnext]
      simp

/-- C2: for every token produced by the annotator from an expression string,
`bare_ref` is true iff the token is a NAME token not immediately preceded by
a `"."` token, and `bare_funcall` is true iff `bare_ref` is true and the
exact next token is `"("`; the annotator preserves the token stream
(therefore a single-token input yields exactly one annotated token). -/
theorem annotated_tokens_flags :
    ∀ (code : String) (ts : List Tok), python_tokenize code = some ts →
      ((annotated_tokens ts).map ATok.base = ts
        ∧ (∀ (i : Nat) (a : ATok), (annotated_tokens ts).get? i = some a →
            a.bare_ref = (isNameAt ts i && !prevIsDot ts i)
              ∧ a.bare_funcall = (a.bare_ref && nextIsLParen ts i))
        ∧ (ts.length = 1 → (annotated_tokens ts).length = 1)) := by
  intro code ts _
  refine ⟨annotateFrom_map_base false ts, ?_, ?_⟩
  · intro i a ha
    have h := annotateFrom_get? ts false i
    rw [annotated_tokens] at ha
    have h2 := h.symm.trans ha
    have hflag : prevFlag false ts i = prevIsDot ts i := by
      cases i with
      | zero => rfl
      | succ j => rfl
    cases hti : ts.get? i with
    | none => rw [hti] at h2; simp at h2
    | some t =>
      rw [hti, Option.map_some'] at h2
      have ha2 : a = ⟨t.typ, t.text, !(prevFlag false ts i) && (t.typ == TokType.NAME),
          (!(prevFlag false ts i) && (t.typ == TokType.NAME)) && nextIsLParen ts i⟩ :=
        (Option.some.inj h2).symm
      have hname : isNameAt ts i = (t.typ == TokType.NAME) := by
        unfold isNameAt
        rw [hti]
      subst ha2
      constructor
      · rw [hflag, hname]
        exact Bool.and_comm _ _
      · rfl
  · intro _
    rw [annotated_tokens, annotateFrom_length]
    assumption

/-- The concrete replacer of `test_replace_bare_funcalls` (patsy/eval.py,
lines 591-592): a ↦ b, foo ↦ _internal.foo.process, identity otherwise. -/
def replacer1 (t : String) : String :=
  (([("a", "b"), ("foo", "_internal.foo.process")].lookup t).getD t)

/-- The token list produced by the rewriting pass of
`replace_bare_funcalls`, before reassembly. -/
def replacedTokens (ts : List Tok) (r : String → String) : List Tok :=
  (annotated_tokens ts).map (fun a =>
    if a.bare_ref && a.bare_funcall then ⟨a.typ, r a.text⟩ else ⟨a.typ, a.text⟩)

/-- C4: `replace_bare_funcalls` substitutes the text of exactly those tokens
that are both `bare_ref` and `bare_funcall` with `replacer(text)`, passes
every other token through unchanged, and reassembles the output via the
normalizer; in particular the substitution a ↦ b, foo ↦ _internal.foo.process
turns `"b() + a() * x[foo(2 ** 3)]"` into
`"b() + b() * x[_internal.foo.process(2 ** 3)]"`. -/
theorem replace_bare_funcalls_spec :
    (∀ (code : String) (ts : List Tok) (r : String → String), python_tokenize code = some ts →
      (replace_bare_funcalls ts r = pretty_untokenize (replacedTokens ts r)
        ∧ (replacedTokens ts r).length = ts.length
        ∧ ∀ (i : Nat) (a : ATok), (annotated_tokens ts).get? i = some a →
            (replacedTokens ts r).get? i =
              some (if a.bare_ref && a.bare_funcall then ⟨a.typ, r a.text⟩ else ⟨a.typ, a.text⟩)))
    ∧ replace_bare_funcalls_str "b() + a() * x[foo(2 ** 3)]" replacer1
        = some "b() + b() * x[_internal.foo.process(2 ** 3)]" := by
  constructor
  · intro code ts r _
    refine ⟨rfl, ?_, ?_⟩
    · rw [replacedTokens, List.length_map, annotated_tokens, annotateFrom_length]
    · intro i a ha
      rw [replacedTokens, List.get?_map, ha]
      rfl
  · rfl

theorem optionMapM_length {α β : Type} (f : α → Option β) :
    ∀ (l : List α) (l2 : List β), l.mapM f = some l2 → l2.length = l.length := by
  intro l
  induction l with
  | nil =>
    intro l2 h
    simp only [List.mapM_nil] at h
    cases h
    rfl
  | cons a rest ih =>
    intro l2 h
    rw [List.mapM_cons] at h
    cases hfa : f a with
    | none => rw [hfa] at h; simp at h
    | some b =>
      rw [hfa] at h
      cases hrest : rest.mapM f with
      | none => rw [hrest] at h; simp at h
      | some bs =>
        rw [hrest] at h
        simp only [Option.bind_some, Option.pure_def] at h
        have : b :: bs = l2 := by simpa using h
        subst this
        simp [ih bs hrest]

theorem captureFold_length (name : String) :
    ∀ (ats : List ATok) (caps res : List FuncallCapturer),
      captureFold name caps ats = some res →
      res.length = caps.length + (ats.filter (fun a => a.bare_ref && a.text == name)).length := by
  intro ats
  induction ats with
  | nil =>
    intro caps res h
    cases h
    simp
  | cons a rest ih =>
    intro caps res h
    rw [captureFold] at h
    cases hmap : caps.mapM (fun c => addToken c ⟨a.typ, a.text⟩) with
    | none => rw [hmap] at h; simp at h
    | some caps1 =>
      rw [hmap] at h
      dsimp only at h
      have hlen1 : caps1.length = caps.length := optionMapM_length _ caps caps1 hmap
      by_cases hc : (a.bare_ref && a.text == name) = true
      · rw [if_pos hc] at h
        have := ih (caps1 ++ [initCapturer ⟨a.typ, a.text⟩]) res h
        simp [List.filter_cons, hc] at this ⊢
        omega
      · rw [if_neg hc] at h
        have hc2 : (a.bare_ref && a.text == name) = false := by
          simpa using hc
        have := ih caps1 res h
        simp [List.filter_cons, hc2] at this ⊢
        omega

theorem optionMapM_mem {α β : Type} (f : α → Option β) :
    ∀ (l : List α) (l2 : List β), l.mapM f = some l2 →
      ∀ b ∈ l2, ∃ a ∈ l, f a = some b := by
  intro l
  induction l with
  | nil =>
    intro l2 h b hb
    simp only [List.mapM_nil] at h
    cases h
    simp at hb
  | cons a rest ih =>
    intro l2 h b hb
    rw [List.mapM_cons] at h
    cases hfa : f a with
    | none => rw [hfa] at h; simp at h
    | some b0 =>
      rw [hfa] at h
      cases hrest : rest.mapM f with
      | none => rw [hrest] at h; simp at h
      | some bs =>
        rw [hrest] at h
        have hl2 : b0 :: bs = l2 := by simpa using h
        rw [← hl2] at hb
        rcases List.mem_cons.1 hb with rfl | hb2
        · exact ⟨a, List.mem_cons_self a rest, hfa⟩
        · obtain ⟨a1, ha1, hfa1⟩ := ih bs hrest b hb2
          exact ⟨a1, List.mem_cons_of_mem a ha1, hfa1⟩

theorem addToken_func {c c' : FuncallCapturer} {t : Tok} (h : addToken c t = some c') :
    ∃ tl, c'.func = c.func ++ tl := by
  unfold addToken at h
  dsimp only at h
  repeat' split at h
  all_goals
    first
      | exact Option.noConfusion h
      | exact ⟨[], by rw [← Option.some.inj h]; exact (List.append_nil c.func).symm⟩
      | exact ⟨[t.text], by rw [← Option.some.inj h]⟩

theorem captureFold_func (name : String) :
    ∀ (ats : List ATok) (caps res : List FuncallCapturer),
      captureFold name caps ats = some res →
      (∀ c ∈ caps, ∃ tl, c.func = name :: tl) →
      ∀ c ∈ res, ∃ tl, c.func = name :: tl := by
  intro ats
  induction ats with
  | nil =>
    intro caps res h hcaps
    cases h
    exact hcaps
  | cons a rest ih =>
    intro caps res h hcaps
    rw [captureFold] at h
    cases hmap : caps.mapM (fun c => addToken c ⟨a.typ, a.text⟩) with
    | none => rw [hmap] at h; simp at h
    | some caps1 =>
      rw [hmap] at h
      dsimp only at h
      have hcaps1 : ∀ c ∈ caps1, ∃ tl, c.func = name :: tl := by
        intro c1 hc1
        obtain ⟨c0, hc0, hadd⟩ := optionMapM_mem _ caps caps1 hmap c1 hc1
        obtain ⟨tl0, htl0⟩ := hcaps c0 hc0
        obtain ⟨tl1, htl1⟩ := addToken_func hadd
        exact ⟨tl0 ++ tl1, by rw [htl1, htl0, List.cons_append]⟩
      by_cases hc : (a.bare_ref && a.text == name) = true
      · rw [if_pos hc] at h
        refine ih _ res h ?_
        intro c1 hc1
        rcases List.mem_append.1 hc1 with hin | hnew
        · exact hcaps1 c1 hin
        · have hc1i : c1 = initCapturer ⟨a.typ, a.text⟩ := by
            simpa using hnew
          have htxt : a.text = name := eq_of_beq (Bool.and_eq_true_iff.1 hc).2
          exact ⟨[], by rw [hc1i, initCapturer, htxt]⟩
      · rw [if_neg hc] at h
        exact ih _ res h hcaps1

theorem string_foldl_append (l : List String) :
    ∀ (s : String), l.foldl (fun r u => r ++ u) s = s ++ l.foldl (fun r u => r ++ u) "" := by
  induction l with
  | nil => intro s; simp
  | cons a rest ih =>
    intro s
    rw [List.foldl_cons, List.foldl_cons, ih (s ++ a), ih ("" ++ a)]
    rw [show ("" ++ a : String) = a from (String.empty_append a)]
    rw [String.append_assoc]

theorem string_join_cons (a : String) (l : List String) :
    String.join (a :: l) = a ++ String.join l := by
  show (a :: l).foldl (fun r u => r ++ u) "" = a ++ l.foldl (fun r u => r ++ u) ""
  rw [List.foldl_cons, string_foldl_append l ("" ++ a)]
  rw [show ("" ++ a : String) = a from (String.empty_append a)]

/-- C3: the call capturer returns one (dotted-call-name, call-text) pair per
bare-reference occurrence of the instance name, in left-to-right order, and
each returned dotted call name begins with the instance name; in particular
`capture_obj_method_calls("foo", "a + foo.baz(bar) + b.c(d)")` returns
exactly `[("foo.baz", "foo.baz(bar)")]`, and occurrences nested inside
another occurrence's argument list are each captured independently
(`"foo.bar(foo.baz(quux))"`). -/
theorem capture_calls_spec :
    (∀ (name : String) (ts : List Tok) (res : List (String × String)),
        captureToks name ts = some res →
        res.length = ((annotated_tokens ts).filter (fun a => a.bare_ref && a.text == name)).length
          ∧ ∀ p ∈ res, ∃ s, p.1 = name ++ s)
    ∧ capture_obj_method_calls "foo" "a + foo.baz(bar) + b.c(d)"
        = some [("foo.baz", "foo.baz(bar)")]
    ∧ capture_obj_method_calls "foo" "foo.bar(foo.baz(quux))"
        = some [("foo.bar", "foo.bar(foo.baz(quux))"), ("foo.baz", "foo.baz(quux)")] := by
  refine ⟨?_, rfl, rfl⟩
  intro name ts res h
  rw [captureToks] at h
  cases hfold : captureFold name [] (annotated_tokens ts) with
  | none => rw [hfold] at h; simp at h
  | some caps =>
    rw [hfold] at h
    have hres : caps.map (fun c => (String.join c.func, pretty_untokenize c.tokens)) = res := by
      simpa using h
    constructor
    · have hlen := captureFold_length name (annotated_tokens ts) [] caps hfold
      rw [← hres, List.length_map]
      simpa using hlen
    · intro p hp
      rw [← hres] at hp
      obtain ⟨c, hc, hpc⟩ := List.mem_map.1 hp
      obtain ⟨tl, htl⟩ := captureFold_func name (annotated_tokens ts) [] caps hfold
        (by intro c0 hc0; simp at hc0) c hc
      refine ⟨String.join tl, ?_⟩
      rw [← hpc]
      show String.join c.func = name ++ String.join tl
      rw [htl, string_join_cons]

/-- The predicate the fix-point body applies to a still-unassigned instance
`n`: its memorize code is present and has no bare reference to any other
still-unassigned instance. -/
def keepInBin (mc : List (String × String)) (all : List String) (n : String) : Bool :=
  match mc.lookup n with
  | none => false
  | some code =>
    match has_bare_variable_reference (List.erase all n) code with
    | none => false
    | some b => !b

theorem keepInBin_true {mc : List (String × String)} {all : List String} {n : String}
    (h : keepInBin mc all n = true) :
    ∃ code, mc.lookup n = some code
      ∧ has_bare_variable_reference (List.erase all n) code = some false := by
  unfold keepInBin at h
  cases hlk : mc.lookup n with
  | none => rw [hlk] at h; simp at h
  | some code =>
    rw [hlk] at h
    dsimp only at h
    cases hb : has_bare_variable_reference (List.erase all n) code with
    | none => rw [hb] at h; simp at h
    | some b =>
      rw [hb] at h
      dsimp only at h
      cases b with
      | true => simp at h
      | false => exact ⟨code, rfl, hb⟩

theorem binFilter_eq_filter (mc : List (String × String)) (all : List String) :
    ∀ (l bin : List String), binFilter mc all l = Except.ok bin →
      bin = l.filter (keepInBin mc all) := by
  intro l
  induction l with
  | nil => intro bin h; cases h; rfl
  | cons n rest ih =>
    intro bin h
    rw [binFilter] at h
    cases hlk : mc.lookup n with
    | none => rw [hlk] at h; exact Except.noConfusion h
    | some code =>
      rw [hlk] at h
      dsimp only at h
      cases hb : has_bare_variable_reference (List.erase all n) code with
      | none => rw [hb] at h; exact Except.noConfusion h
      | some b =>
        rw [hb] at h
        dsimp only at h
        cases htail : binFilter mc all rest with
        | error e => rw [htail] at h; exact Except.noConfusion h
        | ok tail =>
          rw [htail] at h
          dsimp only at h
          have hkeep : keepInBin mc all n = !b := by
            unfold keepInBin
            rw [hlk]
            dsimp only
            rw [hb]
          have hbin : (if b = true then tail else n :: tail) = bin := by
            cases b with
            | true => simpa using (Except.ok.inj h)
            | false => simpa using (Except.ok.inj h)
          cases b with
          | true =>
            rw [← hbin]
            simp only [if_pos rfl]
            rw [ih tail htail, List.filter_cons]
            rw [hkeep]
            simp
          | false =>
            rw [← hbin]
            simp only [if_neg (by simp : ¬(false = true))]
            rw [ih tail htail, List.filter_cons]
            rw [hkeep]
            simp

theorem contains_true_iff {l : List String} {x : String} : l.contains x = true ↔ x ∈ l := by
  simp [List.contains_eq_any_beq, List.any_eq_true, eq_comm]

theorem bin_rest_perm (mc : List (String × String)) (unsorted bin : List String)
    (hbin : binFilter mc unsorted unsorted = Except.ok bin) :
    (bin ++ unsorted.filter (fun x => !bin.contains x)).Perm unsorted := by
  have hfb := binFilter_eq_filter mc unsorted unsorted bin hbin
  have hcong : unsorted.filter (fun x => !bin.contains x)
      = unsorted.filter (fun x => !keepInBin mc unsorted x) := by
    apply List.filter_congr
    intro x hx
    congr 1
    by_cases hk : keepInBin mc unsorted x = true
    · rw [hk]
      exact contains_true_iff.2 (hfb ▸ List.mem_filter.2 ⟨hx, hk⟩)
    · have hk2 : keepInBin mc unsorted x = false := by
        simpa using hk
      rw [hk2]
      by_cases hc : bin.contains x = true
      · have hxb := contains_true_iff.1 hc
        rw [hfb] at hxb
        have := (List.mem_filter.1 hxb).2
        rw [hk2] at this
        exact absurd this (by simp)
      · simpa using hc
  rw [hcong, hfb]
  exact List.filter_append_perm _ unsorted

theorem binLoop_perm (mc : List (String × String)) :
    ∀ (fuel : Nat) (unsorted : List String) (bins : List (List String)),
      binLoop mc fuel unsorted = Except.ok bins → bins.flatten.Perm unsorted := by
  intro fuel
  induction fuel with
  | zero =>
    intro unsorted bins h
    cases unsorted with
    | nil => cases h; simp
    | cons n rest0 => exact Except.noConfusion h
  | succ fuel ih =>
    intro unsorted bins h
    cases unsorted with
    | nil => cases h; simp
    | cons n rest0 =>
      rw [binLoop] at h
      cases hbf : binFilter mc (n :: rest0) (n :: rest0) with
      | error e => rw [hbf] at h; exact Except.noConfusion h
      | ok bin =>
        rw [hbf] at h
        dsimp only at h
        by_cases he : bin.isEmpty
        · rw [if_pos he] at h; exact Except.noConfusion h
        · rw [if_neg he] at h
          cases hrec : binLoop mc fuel ((n :: rest0).filter (fun x => !bin.contains x)) with
          | error e => rw [hrec] at h; exact Except.noConfusion h
          | ok bins1 =>
            rw [hrec] at h
            have hb : bin :: bins1 = bins := Except.ok.inj h
            rw [← hb]
            rw [List.flatten_cons]
            exact ((ih _ bins1 hrec).append_left bin).trans
              (bin_rest_perm mc (n :: rest0) bin hbf)

theorem binLoop_nonempty (mc : List (String × String)) :
    ∀ (fuel : Nat) (unsorted : List String) (bins : List (List String)),
      binLoop mc fuel unsorted = Except.ok bins → ∀ bin ∈ bins, bin ≠ [] := by
  intro fuel
  induction fuel with
  | zero =>
    intro unsorted bins h
    cases unsorted with
    | nil => cases h; intro bin hb; simp at hb
    | cons n rest0 => exact Except.noConfusion h
  | succ fuel ih =>
    intro unsorted bins h
    cases unsorted with
    | nil => cases h; intro bin hb; simp at hb
    | cons n rest0 =>
      rw [binLoop] at h
      cases hbf : binFilter mc (n :: rest0) (n :: rest0) with
      | error e => rw [hbf] at h; exact Except.noConfusion h
      | ok bin =>
        rw [hbf] at h
        dsimp only at h
        by_cases he : bin.isEmpty
        · rw [if_pos he] at h; exact Except.noConfusion h
        · rw [if_neg he] at h
          cases hrec : binLoop mc fuel ((n :: rest0).filter (fun x => !bin.contains x)) with
          | error e => rw [hrec] at h; exact Except.noConfusion h
          | ok bins1 =>
            rw [hrec] at h
            have hb : bin :: bins1 = bins := Except.ok.inj h
            rw [← hb]
            intro b hbmem
            cases hbmem with
            | head =>
              intro hnil
              rw [hnil] at he
              exact he rfl
            | tail _ htl => exact ih _ bins1 hrec b htl

theorem hbvr_mono {names : List String} {code : String} {m : String}
    (h : has_bare_variable_reference names code = some false) (hm : m ∈ names) :
    has_bare_variable_reference [m] code = some false := by
  unfold has_bare_variable_reference at h ⊢
  cases ht : python_tokenize code with
  | none => simp [ht] at h
  | some ts =>
    simp only [ht, Option.map_some'] at h ⊢
    have h2 : hbvrToks names (annotated_tokens ts) = false := by
      simpa using h
    have h3 : hbvrToks [m] (annotated_tokens ts) = false := by
      rw [hbvrToks, List.any_eq_false]
      intro a ha
      rw [hbvrToks, List.any_eq_false] at h2
      have h2a := h2 a ha
      intro hcon
      apply h2a
      have hparts := Bool.and_eq_true_iff.1 hcon
      have htxt : a.text = m := by
        have := hparts.2
        rw [contains_true_iff] at this
        simpa using this
      rw [Bool.and_eq_true_iff]
      refine ⟨hparts.1, ?_⟩
      rw [contains_true_iff, htxt]
      exact hm
    rw [h3]

theorem binLoop_ordering (mc : List (String × String)) :
    ∀ (fuel : Nat) (unsorted : List String) (bins : List (List String)),
      binLoop mc fuel unsorted = Except.ok bins →
      ∀ (k j : Nat) (bk bj : List String), bins.get? k = some bk → bins.get? j = some bj →
        k ≤ j → ∀ n ∈ bk, ∀ m ∈ bj, m ≠ n →
          ∃ mcode, mc.lookup n = some mcode
            ∧ has_bare_variable_reference [m] mcode = some false := by
  intro fuel
  induction fuel with
  | zero =>
    intro unsorted bins h
    cases unsorted with
    | nil => cases h; intro k j bk bj hbk; simp at hbk
    | cons n rest0 => exact Except.noConfusion h
  | succ fuel ih =>
    intro unsorted bins h
    cases unsorted with
    | nil => cases h; intro k j bk bj hbk; simp at hbk
    | cons x rest0 =>
      rw [binLoop] at h
      cases hbf : binFilter mc (x :: rest0) (x :: rest0) with
      | error e => rw [hbf] at h; exact Except.noConfusion h
      | ok bin =>
        rw [hbf] at h
        dsimp only at h
        by_cases he : bin.isEmpty
        · rw [if_pos he] at h; exact Except.noConfusion h
        · rw [if_neg he] at h
          cases hrec : binLoop mc fuel ((x :: rest0).filter (fun y => !bin.contains y)) with
          | error e => rw [hrec] at h; exact Except.noConfusion h
          | ok bins1 =>
            rw [hrec] at h
            have hb : bin :: bins1 = bins := Except.ok.inj h
            have hfb := binFilter_eq_filter mc (x :: rest0) (x :: rest0) bin hbf
            have hmem_tail : ∀ (j1 : Nat) (bj : List String), bins1.get? j1 = some bj →
                ∀ m ∈ bj, m ∈ (x :: rest0) := by
              intro j1 bj hbj m hm
              have hjoin : m ∈ bins1.flatten :=
                List.mem_flatten.2 ⟨bj, List.get?_mem hbj, hm⟩
              have hperm := binLoop_perm mc fuel _ bins1 hrec
              have := hperm.mem_iff.1 hjoin
              exact (List.mem_filter.1 this).1
            rw [← hb]
            intro k j bk bj hbk hbj hkj n hn m hm hne
            cases k with
            | zero =>
              have hbk2 : bin = bk := by
                simpa using hbk
              subst hbk2
              have hkeep := (List.mem_filter.1 (hfb ▸ hn)).2
              obtain ⟨code, hcode, hbvr⟩ := keepInBin_true hkeep
              have hmu : m ∈ (x :: rest0) := by
                cases j with
                | zero =>
                  have hbj2 : bin = bj := by
                    simpa using hbj
                  subst hbj2
                  exact (List.mem_filter.1 (hfb ▸ hm)).1
                | succ j1 =>
                  exact hmem_tail j1 bj (by simpa using hbj) m hm
              have hmerase : m ∈ (x :: rest0).erase n :=
                (List.mem_erase_of_ne hne).2 hmu
              exact ⟨code, hcode, hbvr_mono hbvr hmerase⟩
            | succ k1 =>
              cases j with
              | zero => omega
              | succ j1 =>
                exact ih _ bins1 hrec k1 j1 bk bj (by simpa using hbk)
                  (by simpa using hbj) (by omega) n hn m hm hne

theorem binLoop_empty_step (mc : List (String × String)) (unsorted : List String) (fuel : Nat)
    (hne : unsorted ≠ []) (hempty : binFilter mc unsorted unsorted = Except.ok []) :
    binLoop mc (fuel + 1) unsorted = Except.error SchedErr.schedulingInvariant := by
  cases unsorted with
  | nil => exact absurd rfl hne
  | cons n rest =>
    rw [binLoop, hempty]
    dsimp only
    simp

theorem mpn_ok_inv {code : String} {env : String → Bool} {st : SchedState} {passes : Nat}
    (h : memorize_passes_needed code env = Except.ok (st, passes)) :
    ∃ toks, python_tokenize code = some toks
      ∧ st.transforms = (allocGo env 0 (annotated_tokens toks)).1
      ∧ st.eval_code = pretty_untokenize (allocGo env 0 (annotated_tokens toks)).2
      ∧ deriveAll st.eval_code st.transforms = Except.ok st.memorize_code
      ∧ binLoop st.memorize_code ((st.transforms.map Prod.fst).dedup.length + 1)
          (st.transforms.map Prod.fst).dedup = Except.ok st.pass_bins
      ∧ passes = st.pass_bins.length := by
  unfold memorize_passes_needed at h
  cases ht : python_tokenize code with
  | none => rw [ht] at h; exact Except.noConfusion h
  | some toks =>
    rw [ht] at h
    dsimp only at h
    refine ⟨toks, rfl, ?_⟩
    cases hbv : has_bare_variable_reference ((allocGo env 0 (annotated_tokens toks)).1.map Prod.fst) code with
    | none => rw [hbv] at h; exact Except.noConfusion h
    | some b =>
      rw [hbv] at h
      cases b with
      | true => dsimp only at h; exact Except.noConfusion h
      | false =>
        dsimp only at h
        cases hda : deriveAll (pretty_untokenize (allocGo env 0 (annotated_tokens toks)).2)
            (allocGo env 0 (annotated_tokens toks)).1 with
        | error e => rw [hda] at h; exact Except.noConfusion h
        | ok mc =>
          rw [hda] at h
          dsimp only at h
          cases hbl : binLoop mc (((allocGo env 0 (annotated_tokens toks)).1.map Prod.fst).dedup.length + 1)
              ((allocGo env 0 (annotated_tokens toks)).1.map Prod.fst).dedup with
          | error e => rw [hbl] at h; exact Except.noConfusion h
          | ok bins =>
            rw [hbl] at h
            dsimp only at h
            have hpair := Except.ok.inj h
            have hst : st = ⟨(allocGo env 0 (annotated_tokens toks)).1,
                pretty_untokenize (allocGo env 0 (annotated_tokens toks)).2, mc, bins⟩ :=
              (congrArg Prod.fst hpair).symm
            have hp : passes = bins.length := (congrArg Prod.snd hpair).symm
            subst hst
            subst hp
            exact ⟨rfl, rfl, hda, hbl, rfl⟩

/-- A total extractor for the scheduler's successful result, for use in
closed witness statements. -/
def schedResult (code : String) (env : String → Bool) : SchedState × Nat :=
  match memorize_passes_needed code env with
  | Except.ok r => r
  | Except.error _ => default

/-- C1: whenever `memorize_passes_needed` succeeds, the pass bins partition
the allocated instance names exactly (each name is in exactly one bin); the
memorize code of an instance in bin `k` has no bare reference to any other
instance in bin `k` or any later bin; every fix-point iteration assigns at
least one instance (no bin is empty); and an iteration that assigns nothing
while instances remain makes the loop fail with the scheduling-invariant
error instead of returning. -/
theorem scheduler_invariants :
    (∀ (code : String) (env : String → Bool) (st : SchedState) (passes : Nat),
      memorize_passes_needed code env = Except.ok (st, passes) →
        ((∀ n : String, st.pass_bins.flatten.count n
            = if n ∈ (st.transforms.map Prod.fst).dedup then 1 else 0)
          ∧ (∀ bin ∈ st.pass_bins, bin ≠ [])
          ∧ (∀ (k j : Nat) (bk bj : List String),
              st.pass_bins.get? k = some bk → st.pass_bins.get? j = some bj → k ≤ j →
              ∀ n ∈ bk, ∀ m ∈ bj, m ≠ n →
                ∃ mcode, st.memorize_code.lookup n = some mcode
                  ∧ has_bare_variable_reference [m] mcode = some false)))
    ∧ (∀ (mc : List (String × String)) (unsorted : List String) (fuel : Nat),
        unsorted ≠ [] → binFilter mc unsorted unsorted = Except.ok [] →
        binLoop mc (fuel + 1) unsorted = Except.error SchedErr.schedulingInvariant) := by
  constructor
  · intro code env st passes h
    obtain ⟨toks, _, _, _, hda, hbl, _⟩ := mpn_ok_inv h
    have hperm := binLoop_perm _ _ _ _ hbl
    refine ⟨?_, binLoop_nonempty _ _ _ _ hbl, binLoop_ordering _ _ _ _ hbl⟩
    intro n
    rw [hperm.count_eq n]
    exact List.count_eq_of_nodup (List.nodup_dedup _)
  · intro mc unsorted fuel hne hempty
    exact binLoop_empty_step mc unsorted fuel hne hempty

theorem deriveMemorize_ok {ec n m : String} (h : deriveMemorize ec n = Except.ok m) :
    ∃ ccode, capture_obj_method_calls n ec = some [(n ++ ".transform", ccode)]
      ∧ strStartsWith ccode (n ++ ".transform" ++ "(") = true
      ∧ m = n ++ ".memorize_chunk" ++ ccode.drop (n ++ ".transform").length := by
  unfold deriveMemorize at h
  cases hc : capture_obj_method_calls n ec with
  | none => rw [hc] at h; exact Except.noConfusion h
  | some l =>
    rw [hc] at h
    cases l with
    | nil => dsimp only at h; exact Except.noConfusion h
    | cons p rest =>
      cases rest with
      | cons q rest2 => dsimp only at h; exact Except.noConfusion h
      | nil =>
        obtain ⟨cname, ccode⟩ := p
        dsimp only at h
        by_cases h1 : cname = n ++ ".transform"
        · rw [if_pos h1] at h
          subst h1
          by_cases h2 : strStartsWith ccode (n ++ ".transform" ++ "(") = true
          · rw [if_pos h2] at h
            refine ⟨ccode, rfl, h2, ?_⟩
            exact (Except.ok.inj h).symm
          · rw [if_neg h2] at h
            exact Except.noConfusion h
        · rw [if_neg h1] at h
          exact Except.noConfusion h

theorem deriveAll_lookup {ec : String} :
    ∀ (l mcl : List (String × String)), deriveAll ec l = Except.ok mcl →
      ∀ (n tok : String), (n, tok) ∈ l →
        ∃ m, deriveMemorize ec n = Except.ok m ∧ mcl.lookup n = some m := by
  intro l
  induction l with
  | nil =>
    intro mcl h n tok hmem
    simp at hmem
  | cons p rest ih =>
    intro mcl h n tok hmem
    obtain ⟨n0, t0⟩ := p
    rw [deriveAll] at h
    cases hd : deriveMemorize ec n0 with
    | error e => rw [hd] at h; exact Except.noConfusion h
    | ok m0 =>
      rw [hd] at h
      dsimp only at h
      cases hrest : deriveAll ec rest with
      | error e => rw [hrest] at h; exact Except.noConfusion h
      | ok ms =>
        rw [hrest] at h
        dsimp only at h
        have hmcl : (n0, m0) :: ms = mcl := Except.ok.inj h
        subst hmcl
        by_cases hnn : n = n0
        · refine ⟨m0, ?_, ?_⟩
          · rw [hnn]; exact hd
          · rw [List.lookup]
            have : (n == n0) = true := by
              simpa using hnn
            rw [this]
        · rcases List.mem_cons.1 hmem with heq | htl
          · exact absurd (congrArg Prod.fst heq) hnn
          · obtain ⟨m, hm1, hm2⟩ := ih ms hrest n tok htl
            refine ⟨m, hm1, ?_⟩
            rw [List.lookup]
            have : (n == n0) = false := by
              simpa using hnn
            rw [this]
            exact hm2

/-- The call text captured for instance `n` in the factor's `eval_code`
(total extractor, for stating C5 without an existential). -/
def capturedCallCode (st : SchedState) (n : String) : String :=
  ((((capture_obj_method_calls n st.eval_code).getD []).headD ("", ""))).2

/-- C5: whenever `memorize_passes_needed` succeeds, every allocated instance
name has exactly one captured `.transform(...)` occurrence in the generated
`eval_code`, and the instance's memorize code is that captured call text
with the leading `<name>.transform` replaced by `<name>.memorize_chunk` and
the argument text unchanged. -/
theorem memorize_code_derivation :
    ∀ (code : String) (env : String → Bool) (st : SchedState) (passes : Nat),
      memorize_passes_needed code env = Except.ok (st, passes) →
      ∀ (n tok : String), (n, tok) ∈ st.transforms →
        capture_obj_method_calls n st.eval_code
            = some [(n ++ ".transform", capturedCallCode st n)]
          ∧ strStartsWith (capturedCallCode st n) (n ++ ".transform" ++ "(") = true
          ∧ st.memorize_code.lookup n
              = some (n ++ ".memorize_chunk"
                  ++ (capturedCallCode st n).drop (n ++ ".transform").length) := by
  intro code env st passes h n tok hmem
  obtain ⟨toks, _, _, _, hda, _, _⟩ := mpn_ok_inv h
  obtain ⟨m, hdm, hlk⟩ := deriveAll_lookup st.transforms st.memorize_code hda n tok hmem
  obtain ⟨ccode, hcap, hsw, hmeq⟩ := deriveMemorize_ok hdm
  have hcc : capturedCallCode st n = ccode := by
    unfold capturedCallCode
    rw [hcap]
    rfl
  rw [hcc]
  exact ⟨hcap, hsw, by rw [hlk, hmeq]⟩

theorem hbvrToks_nil (ats : List ATok) : hbvrToks [] ats = false := by
  simp [hbvrToks]

theorem allocGo_nostateful {env : String → Bool} :
    ∀ (ats : List ATok) (i : Nat),
      (∀ a ∈ ats, (a.bare_ref && a.bare_funcall && env a.text) = false) →
      allocGo env i ats = ([], ats.map ATok.base) := by
  intro ats
  induction ats with
  | nil => intro i _; rfl
  | cons a rest ih =>
    intro i h
    have ha := h a (List.mem_cons_self a rest)
    rw [allocGo]
    rw [ih i (fun b hb => h b (List.mem_cons_of_mem a hb))]
    simp [ha, ATok.base]

/-- C8: when no bare call in the factor's source resolves to a
stateful-transform factory, scheduling allocates zero instances, produces
zero pass bins, returns pass count 0, leaves `eval_code` equal to the
(already normalized) original code, and subsequent evaluation equals direct
evaluation of the unmodified code against the same data and environment. -/
theorem no_transform_identity :
    ∀ (code : String) (ts : List Tok) (env : String → Bool),
      python_tokenize code = some ts →
      pretty_untokenize ts = code →
      (∀ a ∈ annotated_tokens ts, (a.bare_ref && a.bare_funcall && env a.text) = false) →
      (memorize_passes_needed code env = Except.ok (⟨[], code, [], []⟩, 0)
        ∧ ∀ (V R : Type) (E : String → (String → Option V) → R)
            (objs data outer : String → Option V),
            evalModel E ⟨[], code, [], []⟩ objs data outer
              = E code (layeredLookup [data, outer])) := by
  intro code ts env htok hnorm hns
  constructor
  · unfold memorize_passes_needed
    rw [htok]
    dsimp only
    rw [allocGo_nostateful (annotated_tokens ts) 0 hns]
    dsimp only
    rw [show (annotated_tokens ts).map ATok.base = ts from annotateFrom_map_base false ts]
    rw [hnorm]
    have hb : has_bare_variable_reference (([] : List (String × String)).map Prod.fst) code
        = some false := by
      unfold has_bare_variable_reference
      rw [htok, Option.map_some']
      rw [show (([] : List (String × String)).map Prod.fst) = [] from rfl]
      rw [hbvrToks_nil]
    rw [hb]
    rfl
  · intro V R E objs data outer
    unfold evalModel layeredLookup
    congr 1

/-- Concrete input for the C8 witness: a factor with no stateful calls. -/
def c8code : String := "x + y"

/-- A namespace with no stateful-transform factories. -/
def envNone : String → Bool := fun _ => false

theorem no_transform_identity_witness :
    memorize_passes_needed c8code envNone = Except.ok (⟨[], c8code, [], []⟩, 0) :=
  (no_transform_identity c8code ((python_tokenize c8code).getD []) envNone rfl rfl
    (by decide)).1

/-- The namespace of `test_EvalFactor_memorize_passes_needed`: foo, bar and
quux are stateful-transform factories. -/
def env6 : String → Bool := fun s => s == "foo" || s == "bar" || s == "quux"

/-- The factor source of `test_EvalFactor_memorize_passes_needed`. -/
def code6 : String := "foo(x) + bar(foo(y)) + quux(z, w)"

/-- The schedule computed for `code6`. -/
def st6 : SchedState := (schedResult code6 env6).1

/-- C6: scheduling `"foo(x) + bar(foo(y)) + quux(z, w)"` with foo, bar, quux
stateful allocates the four instances, returns exactly 2 passes, and
produces bin 0 = both foo instances and the quux instance, bin 1 = the bar
instance only. -/
theorem example_schedule :
    memorize_passes_needed code6 env6 = Except.ok (st6, 2)
      ∧ st6.transforms.map Prod.fst
          = ["_patsy_stobj0__foo__", "_patsy_stobj1__bar__",
             "_patsy_stobj2__foo__", "_patsy_stobj3__quux__"]
      ∧ st6.pass_bins
          = [["_patsy_stobj0__foo__", "_patsy_stobj2__foo__", "_patsy_stobj3__quux__"],
             ["_patsy_stobj1__bar__"]] :=
  ⟨rfl, rfl, rfl⟩

theorem scheduler_invariants_witness :
    st6.pass_bins.flatten.count "_patsy_stobj0__foo__"
      = if "_patsy_stobj0__foo__" ∈ (st6.transforms.map Prod.fst).dedup then 1 else 0 :=
  (scheduler_invariants.1 code6 env6 st6 2 rfl).1 "_patsy_stobj0__foo__"

theorem memorize_code_derivation_witness :
    capture_obj_method_calls "_patsy_stobj0__foo__" st6.eval_code
        = some [("_patsy_stobj0__foo__" ++ ".transform",
                 capturedCallCode st6 "_patsy_stobj0__foo__")]
      ∧ strStartsWith (capturedCallCode st6 "_patsy_stobj0__foo__")
          ("_patsy_stobj0__foo__" ++ ".transform" ++ "(") = true
      ∧ st6.memorize_code.lookup "_patsy_stobj0__foo__"
          = some ("_patsy_stobj0__foo__" ++ ".memorize_chunk"
              ++ (capturedCallCode st6 "_patsy_stobj0__foo__").drop
                  ("_patsy_stobj0__foo__" ++ ".transform").length) :=
  memorize_code_derivation code6 env6 st6 2 rfl "_patsy_stobj0__foo__" "foo" (by decide)

/-- A namespace where only foo is a stateful-transform factory. -/
def envFoo : String → Bool := fun s => s == "foo"

/-- Concrete input whose generated instance name `_patsy_stobj0__foo__`
already occurs as a bare reference in the original source. -/
def code7 : String := "foo(x) + _patsy_stobj0__foo__"

/-- C7 (code bug): on a naming collision the Python code executes
`raise PatsyError(... % (token,), token.origin)` where `token` is not in
scope, so the run fails with `NameError` instead of the intended
`PatsyError` carrying the source location. -/
theorem collision_raises_unbound_name :
    memorize_passes_needed code7 envFoo = Except.error SchedErr.nameErrorUnboundToken :=
  rfl

/-- The factor source of `test_EvalFactor_end_to_end`. -/
def c9code : String := "foo(x) + foo(foo(y))"

/-- The schedule and pass count computed for `c9code`. -/
def c9sched : Except SchedErr (SchedState × Nat) := memorize_passes_needed c9code envFoo

/-- The schedule computed for `c9code`. -/
def c9st : SchedState := (schedResult c9code envFoo).1

/-- Fresh `_MockTransform` instances, one per allocated name. -/
def c9tr0 : Trans := c9st.transforms.map (fun p => (p.1, MockTransform.init))

/-- First data chunk of the end-to-end test. -/
def c9chunkA : List (String × List Int) := [("x", [1, 2]), ("y", [10, 11])]

/-- Second data chunk of the end-to-end test. -/
def c9chunkB : List (String × List Int) := [("x", [12, -10]), ("y", [100, 3])]

/-- Transform state after feeding both chunks to pass 0. -/
def c9tr1 : Option Trans :=
  (factorMemorizeChunk c9st 0 c9chunkA c9tr0).bind (factorMemorizeChunk c9st 0 c9chunkB)

/-- Transform state after finishing pass 0. -/
def c9tr2 : Option Trans := c9tr1.bind (factorMemorizeFinish c9st 0)

/-- Transform state after feeding both chunks to pass 1. -/
def c9tr3 : Option Trans :=
  (c9tr2.bind (factorMemorizeChunk c9st 1 c9chunkA)).bind (factorMemorizeChunk c9st 1 c9chunkB)

/-- Transform state after finishing pass 1. -/
def c9tr4 : Option Trans := c9tr3.bind (factorMemorizeFinish c9st 1)

/-- The full four-element data set of the end-to-end test. -/
def c9fullData : List (String × List Int) :=
  [("x", [1, 2, 12, -10]), ("y", [10, 11, 100, 3])]

/-- C9: end-to-end streaming of `"foo(x) + foo(foo(y))"` with the
sum-subtracting mock transform: 2 passes; after the two pass-0 chunks the
x-instance has accumulated sum 5 with 2 memorize_chunk calls and 0
memorize_finish calls; after one memorize_finish its transform of
[1,2,12,-10] is [-4,-3,7,-15]; after running and finishing pass 1, eval on
the full data returns [254, 256, 355, 236]. -/
theorem end_to_end_streaming :
    c9sched = Except.ok (c9st, 2)
      ∧ c9tr1.bind (fun tr => tr.lookup "_patsy_stobj0__foo__") = some ⟨5, 2, 0⟩
      ∧ (c9tr2.bind (fun tr => tr.lookup "_patsy_stobj0__foo__")).map
            (fun t => (t.finishCalled, MockTransform.transform t [1, 2, 12, -10]))
          = some (1, [-4, -3, 7, -15])
      ∧ c9tr4.bind (factorEval c9st c9fullData) = some [254, 256, 355, 236] :=
  ⟨rfl, rfl, rfl, rfl⟩

theorem lookupFirst_first_hit {V : Type} {k : String} :
    ∀ (ds : List (List (String × V))) (i : Nat) (d : List (String × V)) (v : V),
      ds.get? i = some d → d.lookup k = some v →
      (∀ (j : Nat) (dj : List (String × V)), j < i → ds.get? j = some dj →
        dj.lookup k = none) →
      lookupFirst k ds = some v := by
  intro ds
  induction ds with
  | nil => intro i d v h; simp at h
  | cons d0 rest ih =>
    intro i d v hget hlk hprev
    cases i with
    | zero =>
      have hd : d0 = d := by simpa using hget
      subst hd
      rw [lookupFirst, hlk]
    | succ i0 =>
      have h0 : d0.lookup k = none := hprev 0 d0 (Nat.succ_pos i0) rfl
      rw [lookupFirst, h0]
      exact ih i0 d v (by simpa using hget) hlk
        (fun j dj hj hg => hprev (j + 1) dj (by omega) (by simpa using hg))

theorem lookupFirst_none_iff {V : Type} {k : String} :
    ∀ (ds : List (List (String × V))),
      lookupFirst k ds = none ↔ ∀ d ∈ ds, d.lookup k = none := by
  intro ds
  induction ds with
  | nil => simp [lookupFirst]
  | cons d0 rest ih =>
    cases h0 : d0.lookup k with
    | some v =>
      rw [lookupFirst, h0]
      constructor
      · intro hcon
        exact absurd hcon (by simp)
      · intro hall
        exact absurd (hall d0 (List.mem_cons_self d0 rest)) (by simp [h0])
    | none =>
      rw [lookupFirst, h0]
      rw [ih]
      constructor
      · intro hall d hd
        rcases List.mem_cons.1 hd with rfl | hd2
        · exact h0
        · exact hall d hd2
      · intro hall d hd
        exact hall d (List.mem_cons_of_mem _ hd)

/-- C10: looking up a key in a `VarLookupDict` returns the value from the
first constructor-supplied mapping containing it and fails only when no
mapping contains it; an assignment goes to the internal zeroth layer, so the
assigned value is subsequently returned while the constructor-supplied
mappings are left unchanged. -/
theorem var_lookup_dict_spec :
    (∀ (V : Type) (ds : List (List (String × V))) (k : String) (i : Nat)
        (d : List (String × V)) (v : V),
      ds.get? i = some d → d.lookup k = some v →
      (∀ (j : Nat) (dj : List (String × V)), j < i → ds.get? j = some dj →
        dj.lookup k = none) →
      (VarLookupDict.ofDicts ds).getItem k = some v)
    ∧ (∀ (V : Type) (ds : List (List (String × V))) (k : String),
        ((VarLookupDict.ofDicts ds).getItem k = none ↔ ∀ d ∈ ds, d.lookup k = none))
    ∧ (∀ (V : Type) (dct : VarLookupDict V) (k : String) (v : V),
        (dct.setItem k v).getItem k = some v ∧ (dct.setItem k v).rest = dct.rest) := by
  refine ⟨?_, ?_, ?_⟩
  · intro V ds k i d v hget hlk hprev
    show lookupFirst k ([] :: ds) = some v
    rw [lookupFirst]
    exact lookupFirst_first_hit ds i d v hget hlk hprev
  · intro V ds k
    show lookupFirst k ([] :: ds) = none ↔ _
    rw [lookupFirst]
    exact lookupFirst_none_iff ds
  · intro V dct k v
    constructor
    · show lookupFirst k (((k, v) :: dct.zeroth) :: dct.rest) = some v
      rw [lookupFirst]
      simp [List.lookup]
    · rfl

theorem var_lookup_dict_spec_witness :
    (VarLookupDict.ofDicts [[("a", 1)], [("a", 2), ("b", 3)]]).getItem "b" = some 3 :=
  var_lookup_dict_spec.1 Nat [[("a", 1)], [("a", 2), ("b", 3)]] "b" 1 [("a", 2), ("b", 3)] 3
    rfl rfl
    (by
      intro j dj hj hg
      have hj0 : j = 0 := by omega
      subst hj0
      cases hg
      rfl)

/-- Token list of a concrete annotator input, for the C2 witness. -/
def ts2w : List Tok := (python_tokenize "a(b) + c.d").getD []

theorem annotated_tokens_flags_witness :
    (annotated_tokens ts2w).map ATok.base = ts2w :=
  (annotated_tokens_flags "a(b) + c.d" ts2w rfl).1

/-- Token list of a concrete capturer input, for the C3 witness. -/
def ts3w : List Tok := (python_tokenize "a + foo.baz(bar) + b.c(d)").getD []

/-- The capturer's result on `ts3w`, for the C3 witness. -/
def res3w : List (String × String) := (captureToks "foo" ts3w).getD []

theorem capture_calls_spec_witness :
    res3w.length
      = ((annotated_tokens ts3w).filter (fun a => a.bare_ref && a.text == "foo")).length :=
  (capture_calls_spec.1 "foo" ts3w res3w rfl).1

/-- Token list of a concrete rewriter input, for the C4 witness. -/
def ts4w : List Tok := (python_tokenize "b() + a() * x[foo(2 ** 3)]").getD []

theorem replace_bare_funcalls_spec_witness :
    (replacedTokens ts4w replacer1).length = ts4w.length :=
  (replace_bare_funcalls_spec.1 "b() + a() * x[foo(2 ** 3)]" ts4w replacer1 rfl).2.1

end Patsy
